import Mathlib

/-!
Verification of the `bitfield-access` crate (`src/lib.rs`): a bit-level
field accessor for byte buffers using MSB-first bit numbering and
big-endian byte order.

The Rust source is shallowly embedded as follows:
* machine integers become `Nat`; the generic unsigned type `T` becomes a
  parameter `sw` (its storage width in bits, `8 * size_of::<T>()`);
* the target platform is 64-bit, so `usize` has 64 bits;
* Rust debug-build panics (overflowing `-`, overflowing `<<`/`>>`,
  failing `assert!`, failing `unwrap`, out-of-bounds indexing) are
  modeled by `Option` (for `read_field`) and by `Except` (for
  `write_field`, whose error value carries the buffer state at the
  moment of the panic, so that "no partial write" claims can be stated);
* a byte buffer is a `List Nat` whose elements are < 256.
-/

namespace BitfieldAccess

/-- Bit width of `usize` on the modeled (64-bit) platform. -/
def USIZE_BITS : Nat := 64

/-- Rust `a - b` on an unsigned integer type: panics (`none`) on underflow. -/
def subChecked (a b : Nat) : Option Nat :=
  if b ≤ a then some (a - b) else none

/-- Rust `x << s` on a `w`-bit unsigned type in a debug build: panics
(`none`) when `s ≥ w`, otherwise keeps the low `w` bits of the result. -/
def shlChecked (w x s : Nat) : Option Nat :=
  if s < w then some ((x <<< s) % 2 ^ w) else none

/-- Rust `T::from(v).unwrap()` / `v.try_into().unwrap()` into a `w`-bit
unsigned type: panics (`none`) when the value does not fit. -/
def castChecked (w v : Nat) : Option Nat :=
  if v < 2 ^ w then some v else none

/-- `fn bitmask<T>(bit_width: usize) -> T` from `src/lib.rs`.

`sw` is the storage width of `T`.  The source asserts
`bit_width <= max_width`, returns `T::max_value()` when `bit_width`
equals the full storage width, and otherwise computes
`(1_usize << bit_width) - 1` (a **usize** shift, which overflows and
panics in a debug build when `bit_width ≥ 64`) and converts it into `T`. -/
def bitmask (sw bit_width : Nat) : Option Nat :=
  if bit_width ≤ sw then
    if bit_width = sw then
      some (2 ^ sw - 1)
    else
      match shlChecked USIZE_BITS 1 bit_width with
      | none => none
      | some v =>
        match subChecked v 1 with
        | none => none
        | some m => castChecked sw m
  else none

/-- One side of a Rust `impl RangeBounds<usize>` value
(`core::ops::Bound`). -/
inductive RangeBound where
  | incl : Nat → RangeBound
  | excl : Nat → RangeBound
  | unbounded : RangeBound
deriving DecidableEq

/-- A Rust range expression: a pair of start and end bounds. -/
structure BitRange where
  lo : RangeBound
  hi : RangeBound
deriving DecidableEq

/-- Resolution of `bitrange.start_bound()` in `read_field`/`write_field`:
`Included i ↦ i`, `Excluded i ↦ i + 1`, `Unbounded ↦ 0`. -/
def resolveStart : RangeBound → Nat
  | .incl i => i
  | .excl i => i + 1
  | .unbounded => 0

/-- Resolution of `bitrange.end_bound()`: `Included i ↦ i + 1`,
`Excluded i ↦ i`, `Unbounded ↦ 8 * data.len()`. -/
def resolveEnd (bufferBits : Nat) : RangeBound → Nat
  | .incl i => i + 1
  | .excl i => i
  | .unbounded => bufferBits

/-- `start / 8` — index of the first byte covered by the field. -/
def firstByte (s : Nat) : Nat := s / 8

/-- `(end - 1) / 8` — index of the last byte covered by the field. -/
def lastByte (e : Nat) : Nat := (e - 1) / 8

/-- `7 - (end - 1) % 8` — number of unused low bits in the last covered
byte. -/
def fieldOffset (e : Nat) : Nat := 7 - (e - 1) % 8

/-- All elements of the buffer are bytes (the Rust buffer has type `[u8]`). -/
def Bytes (data : List Nat) : Prop := ∀ b ∈ data, b < 256

/-- Storage widths of the unsigned integer types the library can be
instantiated at (`u8` … `u128`). -/
def isStorageWidth (sw : Nat) : Prop :=
  sw = 8 ∨ sw = 16 ∨ sw = 32 ∨ sw = 64 ∨ sw = 128

/-- The accumulation loop of `read_field`
(`for i in 1..num_bytes { result = result | T::from(data[last_byte - i]).unwrap() << (8 * i - offset); }`)
after `j` iterations, starting from the seed
`T::from(data[last_byte] >> offset).unwrap()`. -/
def readIter (sw : Nat) (data : List Nat) (last_byte offset : Nat) : Nat → Option Nat
  | 0 =>
    match data.get? last_byte with
    | none => none
    | some b => castChecked sw (b >>> offset)
  | j + 1 =>
    match readIter sw data last_byte offset j with
    | none => none
    | some acc =>
      match data.get? (last_byte - (j + 1)) with
      | none => none
      | some b =>
        match castChecked sw b with
        | none => none
        | some bT =>
          match shlChecked sw bT (8 * (j + 1) - offset) with
          | none => none
          | some sh => some (acc ||| sh)

/-- `fn read_field<T>(&self, bitrange) -> T` from `src/lib.rs`,
parameterized by the storage width `sw` of `T`.  `none` models a panic. -/
def read_field (sw : Nat) (data : List Nat) (r : BitRange) : Option Nat :=
  let s := resolveStart r.lo
  let e := resolveEnd (data.length * 8) r.hi
  match subChecked e s with
  | none => none
  | some bit_width =>
    if bit_width ≤ sw then
      match subChecked e 1 with
      | none => none
      | some _em1 =>
        let first_byte := firstByte s
        let last_byte := lastByte e
        match subChecked last_byte first_byte with
        | none => none
        | some nbm1 =>
          let offset := fieldOffset e
          match bitmask sw bit_width with
          | none => none
          | some mask =>
            match readIter sw data last_byte offset nbm1 with
            | none => none
            | some result => some (result &&& mask)
    else none

/-- The byte loop of `write_field`
(`for i in (first_byte..=last_byte).rev() { ... }`), with `count`
remaining iterations; the iteration with `count = c + 1` processes byte
index `f + c`.  The error value carries the buffer at the moment of the
panic. -/
def writeLoop (sw f s : Nat) : Nat → List Nat → Nat → Nat → Except (List Nat) (List Nat)
  | 0, data, _, _ => .ok data
  | count + 1, data, e, value =>
    let i := f + count
    match subChecked e 1 with
    | none => .error data
    | some _em1 =>
      let bit_offset := fieldOffset e
      match subChecked e s with
      | none => .error data
      | some rem =>
        let bit_width := min (8 - bit_offset) rem
        match bitmask 8 bit_width with
        | none => .error data
        | some m8 =>
          match shlChecked 8 m8 bit_offset with
          | none => .error data
          | some bit_mask =>
            let new_bits := value &&& 255
            match data.get? i with
            | none => .error data
            | some old =>
              match shlChecked 8 new_bits bit_offset with
              | none => .error data
              | some sh =>
                let data' := data.set i ((old &&& (255 ^^^ bit_mask)) ||| (sh &&& bit_mask))
                match subChecked e bit_width with
                | none => .error data'
                | some e' =>
                  writeLoop sw f s count data' e'
                    (if bit_width < sw then value >>> bit_width else 0)

/-- `fn write_field<T>(&mut self, bitrange, value)` from `src/lib.rs`,
parameterized by the storage width `sw` of `T`.  Returns `.ok` with the
final buffer, or `.error` with the buffer state at the panic. -/
def write_field (sw : Nat) (data : List Nat) (r : BitRange) (value : Nat) :
    Except (List Nat) (List Nat) :=
  let s := resolveStart r.lo
  let e := resolveEnd (data.length * 8) r.hi
  let first_byte := firstByte s
  match subChecked e 1 with
  | none => .error data
  | some _em1 =>
    let last_byte := lastByte e
    match subChecked e s with
    | none => .error data
    | some w =>
      match bitmask sw w with
      | none => .error data
      | some max_value =>
        if value ≤ max_value then
          match castChecked sw 255 with
          | none => .error data
          | some _byte_mask =>
            writeLoop sw first_byte s (last_byte + 1 - first_byte) data e value
        else .error data

/-- Big-endian value of a byte list: the head byte is the most
significant. -/
def beNat : List Nat → Nat
  | [] => 0
  | b :: l => b * 2 ^ (8 * l.length) + beNat l

/-- Big-endian encoding of the low `8 * n` bits of `v` as `n` bytes. -/
def beBytes : Nat → Nat → List Nat
  | 0, _ => []
  | n + 1, v => beBytes n (v / 256) ++ [v % 256]

/-- Big-endian value of the `n`-byte slice of `data` starting at byte
`f`. -/
def sliceBE (data : List Nat) (f n : Nat) : Nat :=
  beNat ((data.drop f).take n)

/-- `spliceVal S off w v` replaces bits `[off, off + w)` (counted from
the least-significant end) of `S` with `v`. -/
def spliceVal (S off w v : Nat) : Nat :=
  S / 2 ^ (off + w) * 2 ^ (off + w) + v * 2 ^ off + S % 2 ^ off

/-- Bit `k` of a buffer in the crate's numbering: bit 0 is the MSB of
byte 0, bit 7 its LSB, bit 8 the MSB of byte 1, and so on. -/
def bitAt (data : List Nat) (k : Nat) : Bool :=
  (data.getD (k / 8) 0).testBit (7 - k % 8)

/-- Buffer state after a `write_field` call, whether it returned
normally or panicked. -/
def writeResult (sw : Nat) (data : List Nat) (r : BitRange) (v : Nat) : List Nat :=
  match write_field sw data r v with
  | .ok d => d
  | .error d => d

/-- `true` when the computation returned normally. -/
def isOk : Except (List Nat) (List Nat) → Bool
  | .ok _ => true
  | .error _ => false

/-- Does `write_field` followed by `read_field` on the same range
reproduce the written value? -/
def roundTripOk (sw : Nat) (data : List Nat) (r : BitRange) (v : Nat) : Bool :=
  match write_field sw data r v with
  | .ok d => read_field sw d r == some v
  | .error _ => false

/-! Sanity checks mirroring the crate's doc examples and unit tests. -/

example : read_field 8 [0x12, 0x34, 0x56, 0x78] ⟨.incl 4, .excl 8⟩ = some 0x2 := by decide
example : read_field 16 [0x12, 0x34, 0x56, 0x78] ⟨.incl 12, .excl 24⟩ = some 0x456 := by decide
example : read_field 8 [0x12, 0x34, 0x56, 0x78] ⟨.incl 25, .incl 25⟩ = some 0x1 := by decide
example : read_field 8 [0x12, 0x34, 0x56, 0x78] ⟨.incl 8, .excl 16⟩ = some 0x34 := by decide
example : read_field 16 [0x12, 0x34, 0x56, 0x78] ⟨.incl 4, .excl 20⟩ = some 0x2345 := by decide
example : read_field 32 [0x12, 0x34, 0x56, 0x78] ⟨.unbounded, .unbounded⟩ = some 0x12345678 := by
  decide
example : read_field 8 [0x12, 0x34, 0x56, 0x78] ⟨.incl 7, .excl 8⟩ = some 0x0 := by decide
example : read_field 8 [0x12, 0x34, 0x56, 0x78] ⟨.incl 17, .incl 17⟩ = some 0x1 := by decide
example : write_field 8 [0x12, 0x34, 0x56, 0x78] ⟨.incl 4, .excl 8⟩ 0xA
    = .ok [0x1A, 0x34, 0x56, 0x78] := by rfl
example : write_field 8 [0x1A, 0x34, 0x56, 0x78] ⟨.incl 20, .incl 27⟩ 0xBC
    = .ok [0x1A, 0x34, 0x5B, 0xC8] := by rfl
example : write_field 8 [0x12, 0x34, 0x56, 0x78] ⟨.incl 12, .excl 20⟩ 0xBC
    = .ok [0x12, 0x3B, 0xC6, 0x78] := by rfl
example : write_field 32 [0x12, 0x34, 0x56, 0x78] ⟨.unbounded, .unbounded⟩ 0x87654321
    = .ok [0x87, 0x65, 0x43, 0x21] := by rfl
example : write_field 8 [0x12, 0x34, 0x56, 0x78] ⟨.incl 7, .excl 8⟩ 0x1
    = .ok [0x13, 0x34, 0x56, 0x78] := by rfl
example : write_field 8 [0x13, 0x34, 0x56, 0x78] ⟨.incl 8, .incl 8⟩ 0x1
    = .ok [0x13, 0xB4, 0x56, 0x78] := by rfl
example : write_field 8 [0x13, 0xB4, 0x56, 0x78] ⟨.incl 30, .excl 31⟩ 0x1
    = .ok [0x13, 0xB4, 0x56, 0x7A] := by rfl

/-! ### Arithmetic helpers -/

theorem testBit_base_add {a k : Nat} (b : Nat) (h : a < 2 ^ k) (t : Nat) :
    (b * 2 ^ k + a).testBit t = if t < k then a.testBit t else b.testBit (t - k) := by
  rw [Nat.mul_comm]
  exact Nat.testBit_mul_pow_two_add b h t

theorem lor_mul_two_pow {a b k : Nat} (h : a < 2 ^ k) :
    a ||| b * 2 ^ k = b * 2 ^ k + a := by
  rw [Nat.lor_comm, Nat.mul_comm b (2 ^ k)]
  exact (Nat.mul_add_lt_is_or h b).symm

theorem testBit_of_ge {c t n : Nat} (hc : c < 2 ^ n) (ht : n ≤ t) : c.testBit t = false :=
  Nat.testBit_lt_two_pow
    (Nat.lt_of_lt_of_le hc (Nat.pow_le_pow_right (by norm_num) ht))

theorem mul_two_pow_mod {b k n : Nat} (hk : k ≤ n) :
    b * 2 ^ k % 2 ^ n = b % 2 ^ (n - k) * 2 ^ k := by
  have h : (2 : Nat) ^ n = 2 ^ (n - k) * 2 ^ k := by
    rw [← Nat.pow_add]
    congr 1
    omega
  rw [h, Nat.mul_mod_mul_right]

theorem two_pow_le_of_le {m n : Nat} (h : m ≤ n) : (2 : Nat) ^ m ≤ 2 ^ n :=
  Nat.pow_le_pow_right (by norm_num) h

theorem add_lt_two_pow_add {a r k m : Nat} (ha : a < 2 ^ k) (hr : r < 2 ^ m) :
    a + r * 2 ^ k < 2 ^ (k + m) := by
  have h1 : r ≤ 2 ^ m - 1 := by omega
  have h2 := Nat.mul_le_mul_right (2 ^ k) h1
  have h3 : (2 ^ m - 1) * 2 ^ k + 2 ^ k = 2 ^ (k + m) := by
    have hp : (2 : Nat) ^ (k + m) = 2 ^ m * 2 ^ k := by rw [← Nat.pow_add, Nat.add_comm]
    have h5 : (2 : Nat) ^ k ≤ 2 ^ m * 2 ^ k := Nat.le_mul_of_pos_left _ (Nat.two_pow_pos m)
    rw [hp, Nat.sub_mul, Nat.one_mul]
    omega
  omega

theorem add_mul_two_pow_mod {a b k n : Nat} (ha : a < 2 ^ k) (hk : k ≤ n) :
    (a + b * 2 ^ k) % 2 ^ n = a + b % 2 ^ (n - k) * 2 ^ k := by
  have key : a + b * 2 ^ k = a + b % 2 ^ (n - k) * 2 ^ k + b / 2 ^ (n - k) * 2 ^ n := by
    calc a + b * 2 ^ k
        = a + (b % 2 ^ (n - k) + 2 ^ (n - k) * (b / 2 ^ (n - k))) * 2 ^ k := by
          rw [Nat.mod_add_div]
      _ = a + b % 2 ^ (n - k) * 2 ^ k + b / 2 ^ (n - k) * (2 ^ (n - k) * 2 ^ k) := by ring
      _ = a + b % 2 ^ (n - k) * 2 ^ k + b / 2 ^ (n - k) * 2 ^ n := by
          rw [← Nat.pow_add, show n - k + k = n from by omega]
  rw [key, Nat.add_mul_mod_self_right]
  apply Nat.mod_eq_of_lt
  have h5 : a + b % 2 ^ (n - k) * 2 ^ k < 2 ^ (k + (n - k)) :=
    add_lt_two_pow_add ha (Nat.mod_lt b (Nat.two_pow_pos _))
  rwa [show k + (n - k) = n from by omega] at h5

theorem add_mul_two_pow_div {a b k : Nat} : (a + b * 2 ^ k) / 2 ^ k = a / 2 ^ k + b :=
  Nat.add_mul_div_right a b (Nat.two_pow_pos k)


/-- Splicing bits `[off, off + width)` of the value `v` into the byte `c`,
exactly as the loop body of `write_field` does it, is the arithmetic
replacement of that bit region of `c`. -/
theorem splice_byte {c off width : Nat} (v : Nat) (hc : c < 256) (how : off + width ≤ 8) :
    (c &&& (255 ^^^ ((2 ^ width - 1) <<< off % 2 ^ 8))) |||
      ((v <<< off % 2 ^ 8) &&& ((2 ^ width - 1) <<< off % 2 ^ 8))
    = c / 2 ^ (off + width) * 2 ^ (off + width) + (v % 2 ^ width * 2 ^ off + c % 2 ^ off) := by
  have hmask : (2 ^ width - 1) <<< off % 2 ^ 8 = (2 ^ width - 1) <<< off := by
    apply Nat.mod_eq_of_lt
    rw [Nat.shiftLeft_eq]
    calc (2 ^ width - 1) * 2 ^ off
        < 2 ^ width * 2 ^ off := by
          apply Nat.mul_lt_mul_of_lt_of_le (by have := Nat.two_pow_pos width; omega)
            (Nat.le_refl _) (Nat.two_pow_pos off)
      _ = 2 ^ (width + off) := by rw [Nat.pow_add]
      _ ≤ 2 ^ 8 := two_pow_le_of_le (by omega)
  have h255 : (255 : Nat) = 2 ^ 8 - 1 := by norm_num
  have hBC : v % 2 ^ width * 2 ^ off + c % 2 ^ off < 2 ^ (off + width) := by
    have h1 := add_lt_two_pow_add (Nat.mod_lt c (Nat.two_pow_pos off))
      (Nat.mod_lt v (Nat.two_pow_pos width))
    omega
  apply Nat.eq_of_testBit_eq
  intro t
  rw [testBit_base_add _ hBC t]
  rw [testBit_base_add (b := v % 2 ^ width) (Nat.mod_lt c (Nat.two_pow_pos off)) t]
  rw [hmask, h255]
  rw [show c / 2 ^ (off + width) = c >>> (off + width) from
    (Nat.shiftRight_eq_div_pow c _).symm]
  simp only [Nat.testBit_lor, Nat.testBit_land, Nat.testBit_xor, Nat.testBit_shiftLeft,
    Nat.testBit_two_pow_sub_one, Nat.testBit_mod_two_pow, Nat.testBit_shiftRight]
  by_cases h1 : t < off
  · have e1 : ¬ (off ≤ t) := by omega
    have e2 : t < off + width := by omega
    have e3 : t < 8 := by omega
    simp [e1, e2, e3, h1]
  · by_cases h2 : t < off + width
    · have e1 : off ≤ t := by omega
      have e2 : t - off < width := by omega
      have e3 : t < 8 := by omega
      simp [e1, e2, e3, h1, h2]
    · by_cases h8 : t < 8
      · have e1 : off ≤ t := by omega
        have e2 : ¬ (t - off < width) := by omega
        have e3 : off + width + (t - (off + width)) = t := by omega
        simp [e1, e2, e3, h1, h2, h8]
      · have hct : c.testBit t = false := testBit_of_ge (show c < 2 ^ 8 from by omega) (by omega)
        have e3 : off + width + (t - (off + width)) = t := by omega
        simp [h1, h2, h8, e3, hct]

/-! ### Evaluation lemmas for the checked primitives -/

theorem subChecked_pos {a b : Nat} (h : b ≤ a) : subChecked a b = some (a - b) := by
  simp [subChecked, h]

theorem subChecked_neg {a b : Nat} (h : a < b) : subChecked a b = none := by
  simp [subChecked, h, Nat.not_le.mpr h]

theorem castChecked_pos {w v : Nat} (h : v < 2 ^ w) : castChecked w v = some v := by
  simp [castChecked, h]

theorem shlChecked_pos {w x s : Nat} (h : s < w) :
    shlChecked w x s = some (x <<< s % 2 ^ w) := by
  simp [shlChecked, h]

theorem bitmask_eq_some {sw w : Nat} (hw : w ≤ sw) (hbug : w < 64 ∨ w = sw) :
    bitmask sw w = some (2 ^ w - 1) := by
  unfold bitmask
  rw [if_pos hw]
  by_cases h : w = sw
  · rw [if_pos h, h]
  · rw [if_neg h]
    have hw64 : w < 64 := by
      rcases hbug with h1 | h1
      · exact h1
      · exact absurd h1 h
    have hsh : shlChecked USIZE_BITS 1 w = some (2 ^ w) := by
      rw [show USIZE_BITS = 64 from rfl, shlChecked_pos hw64, Nat.shiftLeft_eq, Nat.one_mul,
        Nat.mod_eq_of_lt (Nat.pow_lt_pow_right (by norm_num) hw64)]
    have hfit : 2 ^ w - 1 < 2 ^ sw := by
      have h2 : (2 : Nat) ^ w ≤ 2 ^ sw := two_pow_le_of_le (by omega)
      have h3 := Nat.two_pow_pos w
      omega
    simp only [hsh, subChecked_pos Nat.one_le_two_pow, castChecked_pos hfit]

/-- `bitmask` panics on a 64-bit platform whenever `64 ≤ w < sw`: the
intermediate `1_usize << bit_width` overflows `usize`. -/
theorem bitmask_eq_none {sw w : Nat} (h64 : 64 ≤ w) (hlt : w < sw) : bitmask sw w = none := by
  unfold bitmask
  rw [if_pos (Nat.le_of_lt hlt), if_neg (Nat.ne_of_lt hlt)]
  have hsh : shlChecked USIZE_BITS 1 w = none := by
    unfold shlChecked
    rw [if_neg (by simp [USIZE_BITS]; omega)]
  rw [hsh]

/-! ### Big-endian value lemmas -/

theorem beNat_lt {l : List Nat} (h : Bytes l) : beNat l < 2 ^ (8 * l.length) := by
  induction l with
  | nil => simp [beNat]
  | cons b rest ih =>
    have hb : b < 256 := h b (List.mem_cons_self b rest)
    have hrest : Bytes rest := fun x hx => h x (List.mem_cons_of_mem _ hx)
    have ih2 := ih hrest
    simp only [beNat, List.length_cons]
    calc b * 2 ^ (8 * rest.length) + beNat rest
        < (b + 1) * 2 ^ (8 * rest.length) := by
          rw [Nat.add_mul, Nat.one_mul]
          omega
      _ ≤ 256 * 2 ^ (8 * rest.length) := Nat.mul_le_mul_right _ (by omega)
      _ = 2 ^ (8 * (rest.length + 1)) := by
          rw [show (256 : Nat) = 2 ^ 8 from by norm_num, ← Nat.pow_add]
          congr 1
          omega

theorem beNat_append (xs ys : List Nat) :
    beNat (xs ++ ys) = beNat xs * 2 ^ (8 * ys.length) + beNat ys := by
  induction xs with
  | nil => simp [beNat]
  | cons b rest ih =>
    simp only [List.cons_append, List.append_eq, beNat, List.length_append, ih]
    have hp : (2 : Nat) ^ (8 * (rest.length + ys.length))
        = 2 ^ (8 * rest.length) * 2 ^ (8 * ys.length) := by
      rw [← Nat.pow_add]
      congr 1
      ring
    rw [hp]
    ring

theorem beNat_singleton (b : Nat) : beNat [b] = b := by
  simp [beNat]

theorem beBytes_length (n : Nat) : ∀ v, (beBytes n v).length = n := by
  induction n with
  | zero => intro v; rfl
  | succ n ih => intro v; simp [beBytes, ih]

theorem beBytes_bytes (n : Nat) : ∀ v, Bytes (beBytes n v) := by
  induction n with
  | zero =>
    intro v b hb
    simp [beBytes] at hb
  | succ n ih =>
    intro v b hb
    simp only [beBytes, List.mem_append, List.mem_singleton] at hb
    rcases hb with h | h
    · exact ih _ b h
    · subst h
      exact Nat.mod_lt _ (by norm_num)

theorem beNat_beBytes (n : Nat) : ∀ v, beNat (beBytes n v) = v % 2 ^ (8 * n) := by
  induction n with
  | zero => intro v; simp [beBytes, beNat, Nat.mod_one]
  | succ n ih =>
    intro v
    rw [beBytes, beNat_append, ih, beNat_singleton]
    simp only [List.length_singleton]
    rw [show (2 : Nat) ^ (8 * (n + 1)) = 256 * 2 ^ (8 * n) from by
      rw [show (256 : Nat) = 2 ^ 8 from by norm_num, ← Nat.pow_add]
      congr 1
      omega]
    rw [Nat.mod_mul]
    omega

theorem beBytes_one (x : Nat) : beBytes 1 x = [x % 256] := rfl

/-! ### The read loop computes the big-endian slice value -/

theorem readIter_spec {sw : Nat} {data : List Nat} {last off : Nat} (hsw : 8 ≤ sw)
    (hB : Bytes data) (hlast : last < data.length) (hoff : off ≤ 7) :
    ∀ j, j ≤ last → 8 * j < sw + off →
      readIter sw data last off j
        = some (beNat ((data.drop (last - j)).take (j + 1)) / 2 ^ off % 2 ^ sw) := by
  intro j
  induction j with
  | zero =>
    intro _ _
    have hb : data.get ⟨last, hlast⟩ < 256 := hB _ (List.get_mem data last hlast)
    rw [Nat.sub_zero, List.drop_eq_get_cons hlast]
    simp only [List.take_succ_cons, List.take_zero]
    rw [beNat_singleton]
    have h1 : data.get ⟨last, hlast⟩ >>> off < 2 ^ sw := by
      have h2 : data.get ⟨last, hlast⟩ >>> off ≤ data.get ⟨last, hlast⟩ := by
        rw [Nat.shiftRight_eq_div_pow]
        exact Nat.div_le_self _ _
      have h3 : (256 : Nat) ≤ 2 ^ sw := by
        calc (256 : Nat) = 2 ^ 8 := by norm_num
          _ ≤ 2 ^ sw := two_pow_le_of_le hsw
      omega
    simp only [readIter, List.get?_eq_get hlast, castChecked_pos h1]
    rw [Nat.shiftRight_eq_div_pow,
      Nat.mod_eq_of_lt (by rw [← Nat.shiftRight_eq_div_pow]; exact h1)]
  | succ j ih =>
    intro hj hsh
    have hidx : last - (j + 1) < data.length := by omega
    have hb : data.get ⟨last - (j + 1), hidx⟩ < 256 :=
      hB _ (List.get_mem data _ hidx)
    set b := data.get ⟨last - (j + 1), hidx⟩ with hbdef
    have hlen : ((data.drop (last - j)).take (j + 1)).length = j + 1 := by
      rw [List.length_take, List.length_drop]
      omega
    have hslice : Bytes ((data.drop (last - j)).take (j + 1)) := by
      intro x hx
      exact hB x (List.mem_of_mem_drop (List.mem_of_mem_take hx))
    have hSlt : beNat ((data.drop (last - j)).take (j + 1)) < 2 ^ (8 * (j + 1)) := by
      have := beNat_lt hslice
      rwa [hlen] at this
    set S := beNat ((data.drop (last - j)).take (j + 1)) with hSdef
    have hAlt : S / 2 ^ off < 2 ^ (8 * (j + 1) - off) := by
      apply Nat.div_lt_of_lt_mul
      calc S < 2 ^ (8 * (j + 1)) := hSlt
        _ = 2 ^ off * 2 ^ (8 * (j + 1) - off) := by
          rw [← Nat.pow_add]
          congr 1
          omega
    have hk : 8 * (j + 1) - off < sw := by omega
    have hbsw : b < 2 ^ sw := by
      have h3 : (256 : Nat) ≤ 2 ^ sw := by
        calc (256 : Nat) = 2 ^ 8 := by norm_num
          _ ≤ 2 ^ sw := two_pow_le_of_le hsw
      omega
    simp only [readIter, ih (by omega) (by omega), List.get?_eq_get hidx, ← hbdef,
      castChecked_pos hbsw, shlChecked_pos hk]
    have hmodA : S / 2 ^ off % 2 ^ sw = S / 2 ^ off := by
      apply Nat.mod_eq_of_lt
      calc S / 2 ^ off < 2 ^ (8 * (j + 1) - off) := hAlt
        _ ≤ 2 ^ sw := two_pow_le_of_le (by omega)
    -- the new slice is b consed onto the old slice
    have hsl : (data.drop (last - (j + 1))).take (j + 2)
        = b :: (data.drop (last - j)).take (j + 1) := by
      rw [List.drop_eq_get_cons hidx, ← hbdef, show last - (j + 1) + 1 = last - j from by omega]
      rfl
    rw [hsl]
    simp only [beNat, hlen, ← hSdef]
    -- goal: some (S / 2^off % 2^sw ||| b <<< (8*(j+1) - off) % 2^sw)
    --     = some ((b * 2^(8*(j+1)) + S) / 2^off % 2^sw)
    have hsplit : (b * 2 ^ (8 * (j + 1)) + S) / 2 ^ off
        = S / 2 ^ off + b * 2 ^ (8 * (j + 1) - off) := by
      have h4 : b * 2 ^ (8 * (j + 1)) = b * 2 ^ (8 * (j + 1) - off) * 2 ^ off := by
        rw [Nat.mul_assoc, ← Nat.pow_add]
        congr 2
        omega
      rw [h4, Nat.add_comm, add_mul_two_pow_div, Nat.add_comm]
    rw [hmodA, hsplit]
    rw [add_mul_two_pow_mod hAlt (Nat.le_of_lt hk)]
    rw [Nat.shiftLeft_eq, mul_two_pow_mod (Nat.le_of_lt hk)]
    rw [lor_mul_two_pow hAlt]
    rw [Nat.add_comm]

theorem readIter_none {sw : Nat} {data : List Nat} {last off : Nat}
    (h : data.length ≤ last) : ∀ j, readIter sw data last off j = none := by
  intro j
  induction j with
  | zero => rw [readIter, List.get?_eq_none.mpr h]
  | succ j ih => rw [readIter, ih]

/-- Master lemma for `read_field`: under the crate's preconditions (and
avoiding the `usize`-shift defect of `bitmask`, i.e. width < 64 or full
storage width), the result is the big-endian value of the covered byte
slice, shifted down by the field's offset in its last byte and reduced
modulo `2 ^ width`. -/
theorem read_field_spec {sw : Nat} {data : List Nat} {r : BitRange} (hsw : 8 ≤ sw)
    (hB : Bytes data)
    (hse : resolveStart r.lo < resolveEnd (data.length * 8) r.hi)
    (he : resolveEnd (data.length * 8) r.hi ≤ 8 * data.length)
    (hw : resolveEnd (data.length * 8) r.hi - resolveStart r.lo ≤ sw)
    (hbug : resolveEnd (data.length * 8) r.hi - resolveStart r.lo < 64 ∨
        resolveEnd (data.length * 8) r.hi - resolveStart r.lo = sw) :
    read_field sw data r
      = some (sliceBE data (firstByte (resolveStart r.lo))
            (lastByte (resolveEnd (data.length * 8) r.hi) + 1
              - firstByte (resolveStart r.lo))
          / 2 ^ fieldOffset (resolveEnd (data.length * 8) r.hi)
          % 2 ^ (resolveEnd (data.length * 8) r.hi - resolveStart r.lo)) := by
  set s := resolveStart r.lo with hs
  set e := resolveEnd (data.length * 8) r.hi with he2
  have hlast_lt : lastByte e < data.length := by
    unfold lastByte
    omega
  have hfl : firstByte s ≤ lastByte e := by
    unfold firstByte lastByte
    omega
  have hoff : fieldOffset e ≤ 7 := by
    unfold fieldOffset
    omega
  have hshift : 8 * (lastByte e - firstByte s) < sw + fieldOffset e := by
    unfold firstByte lastByte fieldOffset
    omega
  have hiter := readIter_spec hsw hB hlast_lt hoff (lastByte e - firstByte s)
    (by omega) hshift
  simp only [read_field, ← hs, ← he2, subChecked_pos (Nat.le_of_lt hse), if_pos hw,
    subChecked_pos (show 1 ≤ e from by omega), subChecked_pos hfl,
    bitmask_eq_some hw hbug, hiter]
  rw [show lastByte e - (lastByte e - firstByte s) = firstByte s from by omega]
  rw [show lastByte e - firstByte s + 1 = lastByte e + 1 - firstByte s from by omega]
  rw [← sliceBE]
  rw [Nat.and_pow_two_sub_one_eq_mod, Nat.mod_mod_of_dvd _ (pow_dvd_pow 2 hw)]

theorem isStorageWidth_ge8 {sw : Nat} (h : isStorageWidth sw) : 8 ≤ sw := by
  rcases h with h | h | h | h | h <;> omega

theorem bitmask_wide_none {sw w : Nat} (h : sw < w) : bitmask sw w = none := by
  unfold bitmask
  rw [if_neg (by omega)]

/-- Claim C10: under `read_field`'s preconditions (in-bounds range
`start < end ≤ 8*len`, width `end - start` at most the storage width
`sw`), every left shift `8 * i - offset` performed by the accumulation
loop (`1 ≤ i < num_bytes`) is strictly below `sw`, and the right shift
of the last byte is at most 7, so no shift in `read_field` can overflow. -/
theorem C10_read_shifts_in_bounds {sw s e len : Nat} (hse : s < e) (he : e ≤ 8 * len)
    (hw : e - s ≤ sw) :
    (∀ i, 1 ≤ i → i ≤ lastByte e - firstByte s → 8 * i - fieldOffset e < sw) ∧
      fieldOffset e ≤ 7 := by
  unfold firstByte lastByte fieldOffset
  constructor
  · intro i h1 h2
    omega
  · omega

/-- Witness for C10 at `sw = 16`, `s = 4`, `e = 20`, `len = 4`. -/
theorem C10_read_shifts_in_bounds_witness :
    (∀ i, 1 ≤ i → i ≤ lastByte 20 - firstByte 4 → 8 * i - fieldOffset 20 < 16) ∧
      fieldOffset 20 ≤ 7 :=
  @C10_read_shifts_in_bounds 16 4 20 4 (by decide) (by decide) (by decide)

/-- Claim C3 (code bug): on a 64-bit platform, `bitmask::<u128>(64)`
panics (debug) — the intermediate `1_usize << 64` overflows — instead of
returning the contractually promised 64-bit all-ones value.  The claim's
contract holds only for `w < 64` or `w` equal to the full storage width. -/
theorem C3_bitmask_u128_w64_panics : bitmask 128 64 = none := by rfl

/-- Claim C5: whenever the resolved width `end - start` exceeds the
storage width of `T`, `read_field` panics (its width assertion) and
`write_field` panics (the assertion inside `bitmask`), leaving the
buffer untouched. -/
theorem C5_overwide_field_panics (sw : Nat) (data : List Nat) (r : BitRange) (v : Nat)
    (hsw : isStorageWidth sw)
    (hwide : sw < resolveEnd (data.length * 8) r.hi - resolveStart r.lo) :
    read_field sw data r = none ∧ write_field sw data r v = .error data := by
  set s := resolveStart r.lo with hs
  set e := resolveEnd (data.length * 8) r.hi with he2
  have hse : s < e := by omega
  constructor
  · simp only [read_field, ← hs, ← he2, subChecked_pos (Nat.le_of_lt hse),
      if_neg (show ¬ (e - s ≤ sw) from by omega)]
  · simp only [write_field, ← hs, ← he2, subChecked_pos (show 1 ≤ e from by omega),
      subChecked_pos (Nat.le_of_lt hse), bitmask_wide_none hwide]

/-- Witness for C5: a width-9 range with a `u8` value, as in the spec's
example; both operations panic. -/
theorem C5_overwide_field_panics_witness :
    read_field 8 [0, 0] ⟨.incl 0, .excl 9⟩ = none ∧
      write_field 8 [0, 0] ⟨.incl 0, .excl 9⟩ 0 = .error [0, 0] :=
  C5_overwide_field_panics 8 [0, 0] ⟨.incl 0, .excl 9⟩ 0 (Or.inl rfl) (by decide)

/-- Claim C4: the unbounded range read over a buffer whose bit size
equals the storage width reconstructs the whole buffer as one big-endian
integer (`B[0]` is the most significant byte, by definition of `beNat`). -/
theorem C4_full_width_identity {sw : Nat} {data : List Nat} (hsw : isStorageWidth sw)
    (hlen : sw = 8 * data.length) (hB : Bytes data) :
    read_field sw data ⟨.unbounded, .unbounded⟩ = some (beNat data) := by
  have hsw8 : 8 ≤ sw := isStorageWidth_ge8 hsw
  have hlen1 : 1 ≤ data.length := by omega
  have h := read_field_spec (r := ⟨.unbounded, .unbounded⟩) hsw8 hB
    (by simp [resolveStart, resolveEnd]; omega)
    (by simp [resolveStart, resolveEnd]; omega)
    (by simp [resolveStart, resolveEnd]; omega)
    (by simp [resolveStart, resolveEnd]; omega)
  rw [h]
  simp only [resolveStart, resolveEnd]
  rw [show firstByte 0 = 0 from rfl]
  rw [show lastByte (data.length * 8) = data.length - 1 from by unfold lastByte; omega]
  rw [show fieldOffset (data.length * 8) = 0 from by unfold fieldOffset; omega]
  rw [show data.length - 1 + 1 - 0 = data.length from by omega]
  rw [show sliceBE data 0 data.length = beNat data from by
    unfold sliceBE
    rw [List.drop_zero, List.take_length]]
  rw [pow_zero, Nat.div_one, Nat.sub_zero]
  rw [Nat.mod_eq_of_lt (by
    have := beNat_lt hB
    rw [Nat.mul_comm] at this
    exact this)]

/-- Witness for C4 at `sw = 16` with the two-byte buffer `[0x12, 0x34]`. -/
theorem C4_full_width_identity_witness :
    read_field 16 [0x12, 0x34] ⟨.unbounded, .unbounded⟩ = some (beNat [0x12, 0x34]) :=
  C4_full_width_identity (Or.inr (Or.inl rfl)) (by decide) (by simp only [Bytes]; decide)

/-! ### Helpers for the write loop -/

theorem bitmask8_eq {w : Nat} (hw : w ≤ 8) : bitmask 8 w = some (2 ^ w - 1) :=
  bitmask_eq_some hw (Or.inl (by omega))

theorem spliceVal_lt {S off w v n : Nat} (hS : S < 2 ^ n) (hv : v < 2 ^ w)
    (h : off + w ≤ n) : spliceVal S off w v < 2 ^ n := by
  unfold spliceVal
  have h1 := add_lt_two_pow_add (a := S % 2 ^ off) (k := off) (m := w)
    (Nat.mod_lt S (Nat.two_pow_pos off)) hv
  have h2 : S / 2 ^ (off + w) < 2 ^ (n - (off + w)) := by
    apply Nat.div_lt_of_lt_mul
    calc S < 2 ^ n := hS
      _ = 2 ^ (off + w) * 2 ^ (n - (off + w)) := by
        rw [← Nat.pow_add]
        congr 1
        omega
  calc S / 2 ^ (off + w) * 2 ^ (off + w) + v * 2 ^ off + S % 2 ^ off
      < (S / 2 ^ (off + w) + 1) * 2 ^ (off + w) := by
        rw [Nat.add_mul, Nat.one_mul]
        omega
    _ ≤ 2 ^ (n - (off + w)) * 2 ^ (off + w) := Nat.mul_le_mul_right _ (by omega)
    _ = 2 ^ n := by
        rw [← Nat.pow_add]
        congr 1
        omega

/-- One iteration of the write loop, seen arithmetically: splicing `v`
into bits `[off, off+w)` of the two-part value `B * 256 + c` splices the
low `8 - off` bits of `v` into byte `c` and the remaining bits into `B`. -/
theorem spliceVal_step (B : Nat) {c : Nat} (v : Nat) {off w : Nat} (hc : c < 256)
    (hoff : off ≤ 7) (hw : 8 - off ≤ w) :
    spliceVal (B * 256 + c) off w v
      = spliceVal B 0 (w - (8 - off)) (v / 2 ^ (8 - off)) * 256
        + (v % 2 ^ (8 - off) * 2 ^ off + c % 2 ^ off) := by
  have h256 : (256 : Nat) = 2 ^ (8 - off) * 2 ^ off := by
    rw [← Nat.pow_add, show 8 - off + off = 8 from by omega]
  have p1 : (B * 256 + c) / 2 ^ (off + w) = B / 2 ^ (w - (8 - off)) := by
    have e1 : (B * 256 + c) / 2 ^ 8 = B := by
      rw [show (2 : Nat) ^ 8 = 256 from by norm_num, Nat.add_comm,
        Nat.add_mul_div_right _ _ (show (0 : Nat) < 256 from by norm_num),
        Nat.div_eq_of_lt hc, Nat.zero_add]
    calc (B * 256 + c) / 2 ^ (off + w)
        = (B * 256 + c) / (2 ^ 8 * 2 ^ (off + w - 8)) := by
          rw [← Nat.pow_add, show 8 + (off + w - 8) = off + w from by omega]
      _ = (B * 256 + c) / 2 ^ 8 / 2 ^ (off + w - 8) := by
          rw [Nat.div_div_eq_div_mul]
      _ = B / 2 ^ (w - (8 - off)) := by
          rw [e1, show off + w - 8 = w - (8 - off) from by omega]
  have p2 : (B * 256 + c) % 2 ^ off = c % 2 ^ off := by
    have e1 : B * 256 = B * 2 ^ (8 - off) * 2 ^ off := by
      rw [Nat.mul_assoc, ← h256]
    rw [e1, Nat.add_comm, Nat.add_mul_mod_self_right]
  unfold spliceVal
  rw [p1, p2]
  simp only [Nat.zero_add, Nat.pow_zero, Nat.mul_one, Nat.mod_one, Nat.add_zero]
  have e4 : v / 2 ^ (8 - off) * 2 ^ (8 - off) + v % 2 ^ (8 - off) = v := by
    rw [Nat.mul_comm]
    exact Nat.div_add_mod v _
  have e3 : (2 : Nat) ^ (off + w) = 2 ^ (w - (8 - off)) * 256 := by
    rw [show (256 : Nat) = 2 ^ 8 from by norm_num, ← Nat.pow_add]
    congr 1
    omega
  calc B / 2 ^ (w - (8 - off)) * 2 ^ (off + w) + v * 2 ^ off + c % 2 ^ off
      = B / 2 ^ (w - (8 - off)) * (2 ^ (w - (8 - off)) * 256)
          + (v / 2 ^ (8 - off) * 2 ^ (8 - off) + v % 2 ^ (8 - off)) * 2 ^ off
          + c % 2 ^ off := by
        rw [e4, ← e3]
    _ = (B / 2 ^ (w - (8 - off)) * 2 ^ (w - (8 - off)) + v / 2 ^ (8 - off)) * 256
          + (v % 2 ^ (8 - off) * 2 ^ off + c % 2 ^ off) := by
        rw [h256]
        ring

theorem get_drop_add {l : List Nat} {f n : Nat} (h1 : n < (l.drop f).length)
    (h2 : f + n < l.length) : (l.drop f).get ⟨n, h1⟩ = l.get ⟨f + n, h2⟩ := by
  have e1 := List.drop_eq_get_cons (l := l.drop f) (n := n) h1
  rw [List.drop_drop, List.drop_drop] at e1
  rw [show f + (n + 1) = f + n + 1 from by omega] at e1
  rw [List.drop_eq_get_cons (l := l) (n := f + n) h2] at e1
  exact ((List.cons_eq_cons.mp e1).1).symm

theorem slice_take_succ {l : List Nat} {f n : Nat} (h : f + n < l.length) :
    (l.drop f).take (n + 1) = (l.drop f).take n ++ [l.get ⟨f + n, h⟩] := by
  have h1 : n < (l.drop f).length := by
    rw [List.length_drop]
    omega
  have e1 := List.take_concat_get (l.drop f) n h1
  rw [List.concat_eq_append] at e1
  rw [← e1]
  congr 2
  rw [← List.get_eq_getElem (l.drop f) ⟨n, h1⟩]
  exact get_drop_add h1 h

theorem set_eq_take_append_drop {l : List Nat} {i : Nat} (a : Nat) (h : i < l.length) :
    l.set i a = l.take i ++ [a] ++ l.drop (i + 1) := by
  induction l generalizing i with
  | nil => simp at h
  | cons b rest ih =>
    cases i with
    | zero => simp
    | succ i =>
      simp only [List.set_cons_succ, List.take_succ_cons, List.drop_succ_cons,
        List.cons_append]
      rw [ih (by simpa using h)]

theorem Bytes_set {data : List Nat} {i x : Nat} (hB : Bytes data) (hx : x < 256) :
    Bytes (data.set i x) := by
  intro b hb
  rcases List.mem_or_eq_of_mem_set hb with h | h
  · exact hB b h
  · omega

theorem sliceBE_succ {data : List Nat} {f n : Nat} (h : f + n < data.length) :
    sliceBE data f (n + 1) = sliceBE data f n * 256 + data.get ⟨f + n, h⟩ := by
  unfold sliceBE
  rw [slice_take_succ h, beNat_append, beNat_singleton, List.length_singleton]
  norm_num

theorem sliceBE_lt {data : List Nat} {f n : Nat} (hB : Bytes data)
    (h : f + n ≤ data.length) : sliceBE data f n < 2 ^ (8 * n) := by
  have hlen : ((data.drop f).take n).length = n := by
    rw [List.length_take, List.length_drop]
    omega
  have hby : Bytes ((data.drop f).take n) := by
    intro x hx
    exact hB x (List.mem_of_mem_drop (List.mem_of_mem_take hx))
  have := beNat_lt hby
  rw [hlen] at this
  exact this

/-- Master lemma for the write loop: processing the covered bytes
`[f, f + n)` from the top index down, with `e` ending inside the top
byte and all of `v`'s `e - s` bits still to place, splices `v` into the
slice and leaves everything else untouched. -/
theorem writeLoop_spec {sw s f : Nat} (hsw : 8 ≤ sw) (hf : f = s / 8) :
    ∀ n data e v, 1 ≤ n →
      8 * (f + n - 1) < e → e ≤ 8 * (f + n) →
      s ≤ e → e - s ≤ sw →
      f + n ≤ data.length → Bytes data → v < 2 ^ (e - s) →
      writeLoop sw f s n data e v
        = .ok (data.take f
            ++ beBytes n (spliceVal (sliceBE data f n) (8 * (f + n) - e) (e - s) v)
            ++ data.drop (f + n)) := by
  intro n
  induction n with
  | zero =>
    intro data e v h1
    omega
  | succ n ih =>
    intro data e v _ hlo hhi hs hwsw hlen hB hv
    have hflen : f + n < data.length := by omega
    have hc : data.get ⟨f + n, hflen⟩ < 256 := hB _ (List.get_mem data _ hflen)
    set c := data.get ⟨f + n, hflen⟩ with hc_def
    have hoffeq : fieldOffset e = 8 * (f + n + 1) - e := by
      unfold fieldOffset
      omega
    have hofflt : fieldOffset e < 8 := by omega
    rcases Nat.eq_zero_or_pos n with hn | hn
    · -- single-byte case: the whole field lies inside byte f
      subst hn
      have hwle : e - s ≤ 8 - fieldOffset e := by omega
      have hmin : min (8 - fieldOffset e) (e - s) = e - s := by omega
      have hflen1 : f < data.length := by omega
      have hget : data.get? f = some c := List.get?_eq_get hflen1
      simp only [writeLoop, subChecked_pos (show 1 ≤ e from by omega), subChecked_pos hs,
        hmin, bitmask8_eq (show e - s ≤ 8 from by omega), shlChecked_pos hofflt,
        hget, subChecked_pos (show e - s ≤ e from by omega), Nat.add_zero, Nat.zero_add]
      -- compute the spliced byte
      have hsb := @splice_byte c (fieldOffset e) (e - s) (v &&& 255) hc (by omega)
      have hv255 : (v &&& 255) % 2 ^ (e - s) = v := by
        rw [show (255 : Nat) = 2 ^ 8 - 1 from by norm_num,
          Nat.and_pow_two_sub_one_eq_mod,
          Nat.mod_mod_of_dvd _ (pow_dvd_pow 2 (by omega)),
          Nat.mod_eq_of_lt hv]
      rw [hv255] at hsb
      rw [hsb]
      -- identify the result list
      have hoffeq1 : fieldOffset e = 8 * (f + 1) - e := by omega
      have hslice1 : sliceBE data f 1 = c := by
        unfold sliceBE
        rw [List.drop_eq_get_cons hflen1, List.take_succ_cons, List.take_zero,
          beNat_singleton]
        exact hc_def.symm
      have hX : spliceVal (sliceBE data f 1) (8 * (f + 1) - e) (e - s) v
          = c / 2 ^ (fieldOffset e + (e - s)) * 2 ^ (fieldOffset e + (e - s))
            + (v * 2 ^ fieldOffset e + c % 2 ^ fieldOffset e) := by
        unfold spliceVal
        rw [hslice1, ← hoffeq1]
        omega
      have hXlt : spliceVal (sliceBE data f 1) (8 * (f + 1) - e) (e - s) v < 2 ^ 8 := by
        apply spliceVal_lt
        · rw [hslice1]
          omega
        · exact hv
        · omega
      rw [beBytes_one, Nat.mod_eq_of_lt (show spliceVal (sliceBE data f 1)
        (8 * (f + 1) - e) (e - s) v < 256 from by omega)]
      rw [hX]
      rw [set_eq_take_append_drop _ hflen1]
    · -- multi-byte case: the top byte f + n takes the low 8 - off bits of v
      have hs8 : s < 8 * (f + n) := by omega
      have hminw : min (8 - fieldOffset e) (e - s) = 8 - fieldOffset e := by omega
      simp only [writeLoop, subChecked_pos (show 1 ≤ e from by omega), subChecked_pos hs,
        hminw, bitmask8_eq (show 8 - fieldOffset e ≤ 8 from by omega),
        shlChecked_pos hofflt, List.get?_eq_get hflen,
        subChecked_pos (show 8 - fieldOffset e ≤ e from by omega)]
      rw [← hc_def]
      -- the spliced top byte
      have hsb := @splice_byte c (fieldOffset e) (8 - fieldOffset e) (v &&& 255) hc
        (by omega)
      have hv255 : (v &&& 255) % 2 ^ (8 - fieldOffset e) = v % 2 ^ (8 - fieldOffset e) := by
        rw [show (255 : Nat) = 2 ^ 8 - 1 from by norm_num,
          Nat.and_pow_two_sub_one_eq_mod,
          Nat.mod_mod_of_dvd _ (pow_dvd_pow 2 (by omega))]
      rw [hv255] at hsb
      have hczero : c / 2 ^ (fieldOffset e + (8 - fieldOffset e))
          * 2 ^ (fieldOffset e + (8 - fieldOffset e)) = 0 := by
        rw [show fieldOffset e + (8 - fieldOffset e) = 8 from by omega]
        rw [Nat.div_eq_of_lt (show c < 2 ^ 8 from by norm_num; omega)]
        exact Nat.zero_mul _
      rw [hsb, hczero, Nat.zero_add]
      set cNew := v % 2 ^ (8 - fieldOffset e) * 2 ^ fieldOffset e + c % 2 ^ fieldOffset e
        with hcNew_def
      have hcNew : cNew < 256 := by
        have h1 := add_lt_two_pow_add (a := c % 2 ^ fieldOffset e) (k := fieldOffset e)
          (m := 8 - fieldOffset e) (Nat.mod_lt c (Nat.two_pow_pos _))
          (Nat.mod_lt v (Nat.two_pow_pos _))
        rw [show fieldOffset e + (8 - fieldOffset e) = 8 from by omega] at h1
        omega
      -- the shifted-down value and decremented end
      have hvshift : (if 8 - fieldOffset e < sw then v >>> (8 - fieldOffset e) else 0)
          = v / 2 ^ (8 - fieldOffset e) := by
        by_cases h : 8 - fieldOffset e < sw
        · rw [if_pos h, Nat.shiftRight_eq_div_pow]
        · rw [if_neg h, Nat.div_eq_of_lt]
          calc v < 2 ^ (e - s) := hv
            _ ≤ 2 ^ (8 - fieldOffset e) := two_pow_le_of_le (by omega)
      rw [hvshift]
      -- apply the induction hypothesis to the updated buffer
      have hih := ih (data.set (f + n) cNew) (8 * (f + n)) (v / 2 ^ (8 - fieldOffset e))
        hn (by omega) (by omega) (by omega) (by omega)
        (by rw [List.length_set]; omega) (Bytes_set hB hcNew)
        (by
          apply Nat.div_lt_of_lt_mul
          calc v < 2 ^ (e - s) := hv
            _ = 2 ^ (8 - fieldOffset e) * 2 ^ (8 * (f + n) - s) := by
              rw [← Nat.pow_add]
              congr 1
              omega)
      rw [show e - (8 - fieldOffset e) = 8 * (f + n) from by omega, hih]
      -- align the three list pieces
      have htake : (data.set (f + n) cNew).take f = data.take f := by
        rw [List.set_take]
        apply List.set_eq_of_length_le
        rw [List.length_take]
        omega
      have hdrop : (data.set (f + n) cNew).drop (f + n) = cNew :: data.drop (f + n + 1) := by
        rw [List.drop_set, if_neg (by omega), Nat.sub_self,
          List.drop_eq_get_cons hflen, ← hc_def, List.set_cons_zero]
      have hslice : sliceBE (data.set (f + n) cNew) f n = sliceBE data f n := by
        unfold sliceBE
        rw [List.drop_set, if_neg (by omega), show f + n - f = n from by omega,
          List.set_take]
        apply congrArg
        apply List.set_eq_of_length_le
        rw [List.length_take]
        omega
      rw [htake, hdrop, hslice]
      -- align the arithmetic
      have hstep := spliceVal_step (sliceBE data f n) (c := c) v hc (by omega)
        (show 8 - fieldOffset e ≤ e - s from by omega)
      have hslice_succ : sliceBE data f (n + 1) = sliceBE data f n * 256 + c := by
        rw [sliceBE_succ hflen, ← hc_def]
      rw [← hslice_succ] at hstep
      rw [show 8 * (f + n) - 8 * (f + n) = 0 from by omega,
        show 8 * (f + n) - s = e - s - (8 - fieldOffset e) from by omega,
        show (8 : Nat) * (f + (n + 1)) - e = fieldOffset e from by omega,
        hstep, ← hcNew_def]
      -- fold beBytes (n + 1)
      have hBn : spliceVal (sliceBE data f n) 0 (e - s - (8 - fieldOffset e))
          (v / 2 ^ (8 - fieldOffset e)) < 2 ^ (8 * n) := by
        apply spliceVal_lt (sliceBE_lt hB (by omega))
        · apply Nat.div_lt_of_lt_mul
          calc v < 2 ^ (e - s) := hv
            _ ≤ 2 ^ (8 - fieldOffset e) * 2 ^ (e - s - (8 - fieldOffset e)) := by
              rw [← Nat.pow_add]
              apply two_pow_le_of_le
              omega
        · omega
      set Bn := spliceVal (sliceBE data f n) 0 (e - s - (8 - fieldOffset e))
        (v / 2 ^ (8 - fieldOffset e)) with hBn_def
      have hdiv : (Bn * 256 + cNew) / 256 = Bn := by
        rw [Nat.add_comm, Nat.add_mul_div_right _ _ (show (0 : Nat) < 256 from by norm_num),
          Nat.div_eq_of_lt hcNew, Nat.zero_add]
      have hmod : (Bn * 256 + cNew) % 256 = cNew := by
        rw [Nat.add_comm, Nat.add_mul_mod_self_right, Nat.mod_eq_of_lt hcNew]
      rw [show beBytes (n + 1) (Bn * 256 + cNew) = beBytes n Bn ++ [cNew] from by
        rw [beBytes, hdiv, hmod]]
      simp only [List.append_assoc, List.singleton_append]
      rw [show f + (n + 1) = f + n + 1 from by omega]

theorem sliceBE_of_append_mid {A mid C : List Nat} {f n : Nat} (hA : A.length = f)
    (hmid : mid.length = n) : sliceBE (A ++ mid ++ C) f n = beNat mid := by
  unfold sliceBE
  rw [List.append_assoc, ← hA, List.drop_left, ← hmid, List.take_left]

theorem bitmask_some_inv {sw w m : Nat} (h : bitmask sw w = some m) :
    w ≤ sw ∧ m = 2 ^ w - 1 ∧ (w < 64 ∨ w = sw) := by
  unfold bitmask at h
  by_cases h1 : w ≤ sw
  · rw [if_pos h1] at h
    by_cases h2 : w = sw
    · rw [if_pos h2] at h
      exact ⟨h1, by cases h; rw [h2], Or.inr h2⟩
    · rw [if_neg h2] at h
      by_cases h3 : w < 64
      · have hsh : shlChecked USIZE_BITS 1 w = some (2 ^ w) := by
          rw [show USIZE_BITS = 64 from rfl, shlChecked_pos h3, Nat.shiftLeft_eq,
            Nat.one_mul, Nat.mod_eq_of_lt (Nat.pow_lt_pow_right (by norm_num) h3)]
        simp only [hsh, subChecked_pos Nat.one_le_two_pow] at h
        unfold castChecked at h
        by_cases h4 : 2 ^ w - 1 < 2 ^ sw
        · rw [if_pos h4] at h
          exact ⟨h1, by cases h; rfl, Or.inl h3⟩
        · rw [if_neg h4] at h
          cases h
      · have hsh : shlChecked USIZE_BITS 1 w = none := by
          unfold shlChecked
          rw [if_neg (by simp only [USIZE_BITS]; omega)]
        rw [hsh] at h
        exact Option.noConfusion h
  · rw [if_neg h1] at h
    cases h

theorem spliceVal_extract {S off w v : Nat} (hv : v < 2 ^ w) :
    spliceVal S off w v / 2 ^ off % 2 ^ w = v := by
  unfold spliceVal
  have hpow : (2 : Nat) ^ (off + w) = 2 ^ w * 2 ^ off := by
    rw [← Nat.pow_add, Nat.add_comm]
  have h1 : S / 2 ^ (off + w) * 2 ^ (off + w) + v * 2 ^ off + S % 2 ^ off
      = S % 2 ^ off + (S / 2 ^ (off + w) * 2 ^ w + v) * 2 ^ off := by
    rw [hpow]
    ring
  rw [h1, Nat.add_mul_div_right _ _ (Nat.two_pow_pos off),
    Nat.div_eq_of_lt (Nat.mod_lt S (Nat.two_pow_pos off)), Nat.zero_add,
    Nat.add_comm (S / 2 ^ (off + w) * 2 ^ w) v, Nat.add_mul_mod_self_right,
    Nat.mod_eq_of_lt hv]

/-- Master lemma for `write_field`: under the crate's preconditions (and
avoiding the `usize`-shift defect of `bitmask`), the call succeeds and
replaces exactly the field's bits inside the covered byte slice. -/
theorem write_field_spec {sw : Nat} {data : List Nat} {r : BitRange} {v : Nat} (hsw : 8 ≤ sw)
    (hB : Bytes data)
    (hse : resolveStart r.lo < resolveEnd (data.length * 8) r.hi)
    (he : resolveEnd (data.length * 8) r.hi ≤ 8 * data.length)
    (hw : resolveEnd (data.length * 8) r.hi - resolveStart r.lo ≤ sw)
    (hbug : resolveEnd (data.length * 8) r.hi - resolveStart r.lo < 64 ∨
        resolveEnd (data.length * 8) r.hi - resolveStart r.lo = sw)
    (hv : v < 2 ^ (resolveEnd (data.length * 8) r.hi - resolveStart r.lo)) :
    write_field sw data r v
      = .ok (data.take (firstByte (resolveStart r.lo))
          ++ beBytes
              (lastByte (resolveEnd (data.length * 8) r.hi) + 1
                - firstByte (resolveStart r.lo))
              (spliceVal
                (sliceBE data (firstByte (resolveStart r.lo))
                  (lastByte (resolveEnd (data.length * 8) r.hi) + 1
                    - firstByte (resolveStart r.lo)))
                (fieldOffset (resolveEnd (data.length * 8) r.hi))
                (resolveEnd (data.length * 8) r.hi - resolveStart r.lo) v)
          ++ data.drop (lastByte (resolveEnd (data.length * 8) r.hi) + 1)) := by
  set s := resolveStart r.lo with hs
  set e := resolveEnd (data.length * 8) r.hi with he2
  have hfl : firstByte s ≤ lastByte e := by
    unfold firstByte lastByte
    omega
  have hlast_lt : lastByte e < data.length := by
    unfold lastByte
    omega
  have hwl := @writeLoop_spec sw s (firstByte s) hsw rfl
    (lastByte e + 1 - firstByte s) data e v (by omega)
    (by
      unfold firstByte lastByte
      omega)
    (by
      unfold firstByte lastByte
      omega)
    (by omega) hw (by omega) hB hv
  simp only [write_field, ← hs, ← he2, subChecked_pos (show 1 ≤ e from by omega),
    subChecked_pos (Nat.le_of_lt hse), bitmask_eq_some hw hbug,
    if_pos (show v ≤ 2 ^ (e - s) - 1 from by omega),
    castChecked_pos (show (255 : Nat) < 2 ^ sw from by
      calc (255 : Nat) < 2 ^ 8 := by norm_num
        _ ≤ 2 ^ sw := two_pow_le_of_le hsw),
    hwl]
  rw [show 8 * (firstByte s + (lastByte e + 1 - firstByte s)) - e = fieldOffset e from by
    unfold firstByte lastByte fieldOffset
    omega]
  rw [show firstByte s + (lastByte e + 1 - firstByte s) = lastByte e + 1 from by omega]

/-- Claim C1 counterexample: for `T = u128` and the valid width-64 range
`0..64` on a 16-byte buffer, `write_field` panics (the `usize` shift in
`bitmask` overflows on a 64-bit platform), so the round trip fails even
though all of the claim's stated preconditions hold. -/
theorem C1_roundtrip_counterexample :
    roundTripOk 128 (List.replicate 16 0) ⟨.incl 0, .excl 64⟩ 0 = false := by rfl

/-- Claim C1 (amended): the write-then-read round trip returns exactly
the written value for every buffer, valid in-bounds range, and in-range
value — provided additionally that the field width is less than 64 (the
platform word size) or equal to `T`'s storage width, which is where the
`bitmask` `usize`-shift defect would otherwise panic the write. -/
theorem C1_round_trip {sw : Nat} {data : List Nat} {r : BitRange} {v : Nat}
    (hsw : isStorageWidth sw) (hB : Bytes data)
    (hse : resolveStart r.lo < resolveEnd (data.length * 8) r.hi)
    (he : resolveEnd (data.length * 8) r.hi ≤ 8 * data.length)
    (hw : resolveEnd (data.length * 8) r.hi - resolveStart r.lo ≤ sw)
    (hbug : resolveEnd (data.length * 8) r.hi - resolveStart r.lo < 64 ∨
        resolveEnd (data.length * 8) r.hi - resolveStart r.lo = sw)
    (hv : v ≤ 2 ^ (resolveEnd (data.length * 8) r.hi - resolveStart r.lo) - 1) :
    roundTripOk sw data r v = true := by
  have hsw8 := isStorageWidth_ge8 hsw
  set s := resolveStart r.lo with hs
  set e := resolveEnd (data.length * 8) r.hi with he2
  have hv2 : v < 2 ^ (e - s) := by
    have := Nat.two_pow_pos (e - s)
    omega
  have hfl : firstByte s ≤ lastByte e := by
    unfold firstByte lastByte
    omega
  have hlast_lt : lastByte e < data.length := by
    unfold lastByte
    omega
  set f := firstByte s with hf
  set n := lastByte e + 1 - firstByte s with hn
  set X := spliceVal (sliceBE data f n) (fieldOffset e) (e - s) v with hX
  have hXlt : X < 2 ^ (8 * n) := by
    rw [hX]
    apply spliceVal_lt (sliceBE_lt hB (by omega)) hv2
    rw [hn]
    unfold fieldOffset firstByte lastByte
    omega
  set data2 := data.take f ++ beBytes n X ++ data.drop (lastByte e + 1) with hd2
  have hlen2 : data2.length = data.length := by
    rw [hd2, List.length_append, List.length_append, List.length_take,
      beBytes_length, List.length_drop]
    omega
  have hB2 : Bytes data2 := by
    intro b hb
    rw [hd2] at hb
    rcases List.mem_append.mp hb with hb1 | hb1
    · rcases List.mem_append.mp hb1 with hb2 | hb2
      · exact hB b (List.mem_of_mem_take hb2)
      · exact beBytes_bytes n X b hb2
    · exact hB b (List.mem_of_mem_drop hb1)
  have hslice2 : sliceBE data2 f n = X := by
    rw [hd2, sliceBE_of_append_mid (by rw [List.length_take]; omega) (beBytes_length n X),
      beNat_beBytes, Nat.mod_eq_of_lt hXlt]
  have hwf := write_field_spec (v := v) hsw8 hB hse he hw hbug hv2
  have hwf2 : write_field sw data r v = Except.ok data2 := hwf
  unfold roundTripOk
  rw [hwf2]
  show (read_field sw data2 r == some v) = true
  have hrd := @read_field_spec sw data2 r hsw8 hB2
    (by rw [hlen2]; exact hse)
    (by rw [hlen2]; exact he)
    (by rw [hlen2]; exact hw)
    (by rw [hlen2]; exact hbug)
  rw [hrd]
  have hkey : sliceBE data2 (firstByte (resolveStart r.lo))
        (lastByte (resolveEnd (data2.length * 8) r.hi) + 1
          - firstByte (resolveStart r.lo))
      / 2 ^ fieldOffset (resolveEnd (data2.length * 8) r.hi)
      % 2 ^ (resolveEnd (data2.length * 8) r.hi - resolveStart r.lo) = v := by
    rw [hlen2]
    rw [show sliceBE data2 (firstByte (resolveStart r.lo))
        (lastByte (resolveEnd (data.length * 8) r.hi) + 1
          - firstByte (resolveStart r.lo)) = X from hslice2]
    rw [hX]
    exact spliceVal_extract hv2
  rw [hkey]
  simp

/-- Witness for C1: writing 5 into bits `4..8` of `[0x12, 0x34]` and
reading the range back returns 5. -/
theorem C1_round_trip_witness : roundTripOk 8 [0x12, 0x34] ⟨.incl 4, .excl 8⟩ 5 = true :=
  C1_round_trip (Or.inl rfl) (by simp only [Bytes]; decide) (by decide) (by decide)
    (by decide) (Or.inl (by decide)) (by decide)

/-- Claim C6 counterexample: for `T = u128` with the in-bounds width-64
range `0..64` and the in-range value 0, `write_field` nevertheless fails
(the `usize` shift inside `bitmask` overflows), refuting the claimed
"fails if and only if the value exceeds the field maximum". -/
theorem C6_iff_counterexample :
    isOk (write_field 128 [0, 0, 0, 0, 0, 0, 0, 0] ⟨.incl 0, .excl 64⟩ 0) = false ∧
      (0 : Nat) ≤ 2 ^ 64 - 1 := by
  constructor
  · rfl
  · decide

/-- Claim C6 (amended): for every in-bounds range whose width does not
exceed `T`'s storage width — and additionally is below 64 or equal to
the full storage width, avoiding the `bitmask` `usize` defect —
`write_field` fails exactly when the value exceeds `2 ^ width - 1`. -/
theorem C6_value_range_check {sw : Nat} {data : List Nat} {r : BitRange} (v : Nat)
    (hsw : isStorageWidth sw) (hB : Bytes data)
    (hse : resolveStart r.lo < resolveEnd (data.length * 8) r.hi)
    (he : resolveEnd (data.length * 8) r.hi ≤ 8 * data.length)
    (hw : resolveEnd (data.length * 8) r.hi - resolveStart r.lo ≤ sw)
    (hbug : resolveEnd (data.length * 8) r.hi - resolveStart r.lo < 64 ∨
        resolveEnd (data.length * 8) r.hi - resolveStart r.lo = sw) :
    isOk (write_field sw data r v)
      = decide (v ≤ 2 ^ (resolveEnd (data.length * 8) r.hi - resolveStart r.lo) - 1) := by
  have hsw8 := isStorageWidth_ge8 hsw
  set s := resolveStart r.lo with hs
  set e := resolveEnd (data.length * 8) r.hi with he2
  by_cases hv : v ≤ 2 ^ (e - s) - 1
  · rw [write_field_spec hsw8 hB hse he hw hbug
      (show v < 2 ^ (e - s) from by have := Nat.two_pow_pos (e - s); omega)]
    simp [isOk, hv]
  · simp only [write_field, ← hs, ← he2, subChecked_pos (show 1 ≤ e from by omega),
      subChecked_pos (Nat.le_of_lt hse), bitmask_eq_some hw hbug, if_neg hv]
    simp [isOk, hv]

/-- Witness for C6: the spec's own instance — writing `0x1F` into the
4-bit field `4..8` fails, since `0x1F > 0xF`. -/
theorem C6_value_range_check_witness :
    isOk (write_field 8 [0x12] ⟨.incl 4, .excl 8⟩ 0x1F) = decide ((0x1F : Nat) ≤ 2 ^ 4 - 1) :=
  C6_value_range_check 0x1F (Or.inl rfl) (by simp only [Bytes]; decide) (by decide)
    (by decide) (by decide) (Or.inl (by decide))

/-- Claim C7 counterexample: the empty range `4..4` does **not** panic:
`read_field` returns 0 and `write_field` returns normally, leaving the
buffer unchanged, although the claim demands a panic for `start >= end`. -/
theorem C7_empty_range_counterexample :
    read_field 8 [0x12] ⟨.incl 4, .excl 4⟩ = some 0 ∧
      write_field 8 [0x12] ⟨.incl 4, .excl 4⟩ 0 = .ok [0x12] := by
  constructor
  · rfl
  · rfl

/-- Claim C7 (amended): for every range that resolves with
`start > end`, or with `start < end` and `end > 8 * len(B)`, both
`read_field` and `write_field` panic without clamping; the degenerate
empty case `start = end` is excluded (there the operations can return
normally). -/
theorem C7_invalid_range_panics {sw : Nat} (data : List Nat) (r : BitRange) (v : Nat)
    (hsw : isStorageWidth sw)
    (hbad : resolveEnd (data.length * 8) r.hi < resolveStart r.lo ∨
        (resolveStart r.lo < resolveEnd (data.length * 8) r.hi ∧
          8 * data.length < resolveEnd (data.length * 8) r.hi)) :
    read_field sw data r = none ∧ isOk (write_field sw data r v) = false := by
  have hsw8 := isStorageWidth_ge8 hsw
  set s := resolveStart r.lo with hs
  set e := resolveEnd (data.length * 8) r.hi with he2
  rcases hbad with hlt | hoob
  · constructor
    · simp only [read_field, ← hs, ← he2, subChecked_neg hlt]
    · by_cases h1 : 1 ≤ e
      · simp only [write_field, ← hs, ← he2, subChecked_pos h1, subChecked_neg hlt, isOk]
      · simp only [write_field, ← hs, ← he2,
          subChecked_neg (show e < 1 from by omega), isOk]
  · obtain ⟨hse, hoob⟩ := hoob
    have hlast_ge : data.length ≤ lastByte e := by
      unfold lastByte
      omega
    have hfl : firstByte s ≤ lastByte e := by
      unfold firstByte lastByte
      omega
    constructor
    · simp only [read_field, ← hs, ← he2, subChecked_pos (Nat.le_of_lt hse)]
      by_cases hwsw : e - s ≤ sw
      · rw [if_pos hwsw]
        simp only [subChecked_pos (show 1 ≤ e from by omega), subChecked_pos hfl]
        rcases hbm : bitmask sw (e - s) with _ | mv
        · simp
        · simp only [readIter_none hlast_ge]
      · rw [if_neg hwsw]
    · simp only [write_field, ← hs, ← he2, subChecked_pos (show 1 ≤ e from by omega),
        subChecked_pos (Nat.le_of_lt hse)]
      rcases hbm : bitmask sw (e - s) with _ | mv
      · simp [isOk]
      · simp only []
        by_cases hv : v ≤ mv
        · rw [if_pos hv]
          simp only [castChecked_pos (show (255 : Nat) < 2 ^ sw from by
            calc (255 : Nat) < 2 ^ 8 := by norm_num
              _ ≤ 2 ^ sw := two_pow_le_of_le hsw8)]
          rw [show lastByte e + 1 - firstByte s = (lastByte e - firstByte s) + 1 from by
            omega]
          simp only [writeLoop, subChecked_pos (show 1 ≤ e from by omega),
            subChecked_pos (Nat.le_of_lt hse),
            bitmask8_eq (show min (8 - fieldOffset e) (e - s) ≤ 8 from by omega),
            shlChecked_pos (show fieldOffset e < 8 from by unfold fieldOffset; omega),
            show firstByte s + (lastByte e - firstByte s) = lastByte e from by omega,
            List.get?_eq_none.mpr hlast_ge]
          rfl
        · rw [if_neg hv]
          rfl

/-- Witness for the amended C7: the reversed range `9..8` makes both
operations panic. -/
theorem C7_invalid_range_panics_witness :
    read_field 8 [0] ⟨.incl 9, .excl 8⟩ = none ∧
      isOk (write_field 8 [0] ⟨.incl 9, .excl 8⟩ 0) = false :=
  C7_invalid_range_panics [0] ⟨.incl 9, .excl 8⟩ 0 (Or.inl rfl) (Or.inl (by decide))

/-- Every panic of `write_field` happens before any byte of the buffer
has been modified: the error state equals the input buffer. -/
theorem write_error_eq {sw : Nat} {data : List Nat} {r : BitRange} {v : Nat} {d : List Nat}
    (hsw : isStorageWidth sw) (hB : Bytes data)
    (herr : write_field sw data r v = .error d) : d = data := by
  have hsw8 := isStorageWidth_ge8 hsw
  have h255 : (255 : Nat) < 2 ^ sw := by
    calc (255 : Nat) < 2 ^ 8 := by norm_num
      _ ≤ 2 ^ sw := two_pow_le_of_le hsw8
  set s := resolveStart r.lo with hs
  set e := resolveEnd (data.length * 8) r.hi with he2
  by_cases h1 : 1 ≤ e
  · by_cases h2 : s ≤ e
    · rcases hbm : bitmask sw (e - s) with _ | mv
      · simp only [write_field, ← hs, ← he2, subChecked_pos h1, subChecked_pos h2,
          hbm] at herr
        exact ((Except.error.injEq _ _).mp herr).symm
      · obtain ⟨hwle, hmv, _⟩ := bitmask_some_inv hbm
        by_cases h3 : v ≤ mv
        · simp only [write_field, ← hs, ← he2, subChecked_pos h1, subChecked_pos h2, hbm,
            if_pos h3, castChecked_pos h255] at herr
          by_cases h4 : firstByte s ≤ lastByte e
          · by_cases h5 : lastByte e < data.length
            · have hfact1 : 1 ≤ lastByte e + 1 - firstByte s := by omega
              have hfact2 : 8 * (firstByte s + (lastByte e + 1 - firstByte s) - 1) < e := by
                unfold firstByte lastByte at h4 ⊢
                omega
              have hfact3 : e ≤ 8 * (firstByte s + (lastByte e + 1 - firstByte s)) := by
                unfold firstByte lastByte at h4 ⊢
                omega
              have hfact4 : firstByte s + (lastByte e + 1 - firstByte s) ≤ data.length := by
                omega
              have hv2 : v < 2 ^ (e - s) := by
                have := Nat.two_pow_pos (e - s)
                omega
              rw [writeLoop_spec (f := firstByte s) hsw8 rfl
                (lastByte e + 1 - firstByte s) data e v hfact1 hfact2 hfact3
                h2 hwle hfact4 hB hv2] at herr
              exact Except.noConfusion herr
            · rw [show lastByte e + 1 - firstByte s = (lastByte e - firstByte s) + 1 from by
                omega] at herr
              simp only [writeLoop, subChecked_pos h1, subChecked_pos h2,
                bitmask8_eq (show min (8 - fieldOffset e) (e - s) ≤ 8 from by omega),
                shlChecked_pos (show fieldOffset e < 8 from by unfold fieldOffset; omega),
                show firstByte s + (lastByte e - firstByte s) = lastByte e from by omega,
                List.get?_eq_none.mpr (show data.length ≤ lastByte e from by omega)] at herr
              exact ((Except.error.injEq _ _).mp herr).symm
          · rw [show lastByte e + 1 - firstByte s = 0 from by omega] at herr
            simp only [writeLoop] at herr
            exact Except.noConfusion herr
        · simp only [write_field, ← hs, ← he2, subChecked_pos h1, subChecked_pos h2, hbm,
            if_neg h3] at herr
          exact ((Except.error.injEq _ _).mp herr).symm
    · simp only [write_field, ← hs, ← he2, subChecked_pos h1,
        subChecked_neg (show e < s from by omega)] at herr
      exact ((Except.error.injEq _ _).mp herr).symm
  · simp only [write_field, ← hs, ← he2,
      subChecked_neg (show e < 1 from by omega)] at herr
    exact ((Except.error.injEq _ _).mp herr).symm

/-- Claim C8: whenever `write_field` fails — over-wide width, value out
of range, or out-of-bounds range — no byte of the buffer was modified
before the panic: the buffer state at the panic equals the input. -/
theorem C8_no_partial_write (sw : Nat) (data : List Nat) (r : BitRange) (v : Nat)
    (d : List Nat) (hsw : isStorageWidth sw) (hB : Bytes data)
    (herr : write_field sw data r v = .error d) : d = data :=
  write_error_eq hsw hB herr

/-- Witness for C8: the failing width-9 `u8` write on `[0x55]` leaves
the buffer `[0x55]` untouched. -/
theorem C8_no_partial_write_witness : ([0x55] : List Nat) = [0x55] :=
  C8_no_partial_write 8 [0x55] ⟨.incl 0, .excl 9⟩ 0 [0x55] (Or.inl rfl)
    (by simp only [Bytes]; decide) (by rfl)

theorem Bytes_append {a b : List Nat} (ha : Bytes a) (hb : Bytes b) : Bytes (a ++ b) := by
  intro x hx
  rcases List.mem_append.mp hx with h | h
  · exact ha x h
  · exact hb x h

theorem getD_take {l : List Nat} {m j : Nat} (hj : j < m) :
    (l.take m).getD j 0 = l.getD j 0 := by
  rw [List.getD_eq_getElem?_getD, List.getD_eq_getElem?_getD, List.getElem?_take_of_lt hj]

theorem getD_drop (l : List Nat) (m j : Nat) :
    (l.drop m).getD j 0 = l.getD (m + j) 0 := by
  rw [List.getD_eq_getElem?_getD, List.getD_eq_getElem?_getD, List.getElem?_drop]

theorem getD_slice {data : List Nat} {f n j : Nat} (hj : j < n) :
    ((data.drop f).take n).getD j 0 = data.getD (f + j) 0 := by
  rw [getD_take hj, getD_drop]

/-- Bit `k` of a byte list in the crate's MSB-first numbering equals bit
`8 * length - 1 - k` of its big-endian value. -/
theorem getD_testBit_beNat {l : List Nat} (hB : Bytes l) :
    ∀ {k : Nat}, k < 8 * l.length →
      (l.getD (k / 8) 0).testBit (7 - k % 8) = (beNat l).testBit (8 * l.length - 1 - k) := by
  induction l with
  | nil =>
    intro k hk
    simp at hk
  | cons b rest ih =>
    intro k hk
    have hrest : Bytes rest := fun x hx => hB x (List.mem_cons_of_mem b hx)
    have hbe : beNat (b :: rest) = b * 2 ^ (8 * rest.length) + beNat rest := rfl
    simp only [List.length_cons] at hk ⊢
    rw [hbe, testBit_base_add b (beNat_lt hrest) (8 * (rest.length + 1) - 1 - k)]
    rcases Nat.lt_or_ge k 8 with hk8 | hk8
    · rw [show k / 8 = 0 from by omega, List.getD_cons_zero,
        if_neg (show ¬ 8 * (rest.length + 1) - 1 - k < 8 * rest.length from by omega)]
      congr 1
      omega
    · rw [show k / 8 = (k - 8) / 8 + 1 from by omega, List.getD_cons_succ,
        if_pos (show 8 * (rest.length + 1) - 1 - k < 8 * rest.length from by omega),
        show k % 8 = (k - 8) % 8 from by omega,
        ih hrest (show k - 8 < 8 * rest.length from by omega)]
      congr 1
      omega

/-- Bit `8 * (f + n) - 1 - k` of the big-endian value of the byte slice
`[f, f + n)` of a buffer is bit `k` of the buffer, for `k` inside the
slice. -/
theorem sliceBE_testBit_bitAt {data : List Nat} {f n k : Nat} (hB : Bytes data)
    (hfn : f + n ≤ data.length) (hk1 : 8 * f ≤ k) (hk2 : k < 8 * (f + n)) :
    (sliceBE data f n).testBit (8 * (f + n) - 1 - k) = bitAt data k := by
  have hlen : ((data.drop f).take n).length = n := by
    rw [List.length_take, List.length_drop]
    omega
  have hby : Bytes ((data.drop f).take n) := fun x hx =>
    hB x (List.mem_of_mem_drop (List.mem_of_mem_take hx))
  have hk3 : k - 8 * f < 8 * ((data.drop f).take n).length := by
    rw [hlen]
    omega
  have hbr := getD_testBit_beNat hby hk3
  rw [hlen] at hbr
  unfold sliceBE
  rw [show 8 * (f + n) - 1 - k = 8 * n - 1 - (k - 8 * f) from by omega, ← hbr,
    show (k - 8 * f) / 8 = k / 8 - f from by omega,
    getD_slice (show k / 8 - f < n from by omega)]
  unfold bitAt
  rw [show f + (k / 8 - f) = k / 8 from by omega,
    show (k - 8 * f) % 8 = k % 8 from by omega]

/-- Bits of `spliceVal S off w v` outside the replaced region
`[off, off + w)` agree with the bits of `S`. -/
theorem spliceVal_testBit_outside {S off w v t : Nat} (hv : v < 2 ^ w)
    (ht : t < off ∨ off + w ≤ t) :
    (spliceVal S off w v).testBit t = S.testBit t := by
  have hlo : S % 2 ^ off < 2 ^ off := Nat.mod_lt S (Nat.two_pow_pos off)
  have hmid : S / 2 ^ off % 2 ^ w < 2 ^ w := Nat.mod_lt _ (Nat.two_pow_pos w)
  have hin1 : v * 2 ^ off + S % 2 ^ off < 2 ^ (off + w) := by
    have := add_lt_two_pow_add hlo hv
    omega
  have hin2 : S / 2 ^ off % 2 ^ w * 2 ^ off + S % 2 ^ off < 2 ^ (off + w) := by
    have := add_lt_two_pow_add hlo hmid
    omega
  have h1 : S % 2 ^ (off + w) = S / 2 ^ off % 2 ^ w * 2 ^ off + S % 2 ^ off := by
    rw [show (2 : Nat) ^ (off + w) = 2 ^ off * 2 ^ w from by rw [← Nat.pow_add],
      Nat.mod_mul]
    ring
  have h2 := Nat.div_add_mod S (2 ^ (off + w))
  rw [Nat.mul_comm] at h2
  have hdecomp : S = S / 2 ^ (off + w) * 2 ^ (off + w)
      + (S / 2 ^ off % 2 ^ w * 2 ^ off + S % 2 ^ off) := by
    omega
  have hsplit : spliceVal S off w v
      = S / 2 ^ (off + w) * 2 ^ (off + w) + (v * 2 ^ off + S % 2 ^ off) := by
    unfold spliceVal
    omega
  rw [hsplit, testBit_base_add _ hin1 t]
  conv_rhs => rw [hdecomp]
  rw [testBit_base_add _ hin2 t]
  rcases ht with h | h
  · rw [if_pos (show t < off + w from by omega), if_pos (show t < off + w from by omega),
      testBit_base_add v hlo t, testBit_base_add _ hlo t, if_pos h, if_pos h]
  · rw [if_neg (show ¬ t < off + w from by omega), if_neg (show ¬ t < off + w from by omega)]

/-- Claim C2: for every byte buffer, every valid bit range (resolving to
`start < end ≤ 8 * len` with width at most the storage width) and every
in-range value, the buffer after `write_field` — the final buffer on
success, the buffer at the moment of the panic otherwise — agrees with
the input buffer on every bit position outside `[start, end)`, including
the untouched bit positions inside the first and last covered bytes. -/
theorem C2_frame {sw : Nat} {data : List Nat} {r : BitRange} {v k : Nat}
    (hsw : isStorageWidth sw) (hB : Bytes data)
    (hse : resolveStart r.lo < resolveEnd (data.length * 8) r.hi)
    (he : resolveEnd (data.length * 8) r.hi ≤ 8 * data.length)
    (hw : resolveEnd (data.length * 8) r.hi - resolveStart r.lo ≤ sw)
    (hv : v ≤ 2 ^ (resolveEnd (data.length * 8) r.hi - resolveStart r.lo) - 1)
    (hk : k < 8 * data.length)
    (hout : k < resolveStart r.lo ∨ resolveEnd (data.length * 8) r.hi ≤ k) :
    bitAt (writeResult sw data r v) k = bitAt data k := by
  have hsw8 := isStorageWidth_ge8 hsw
  set s := resolveStart r.lo with hs
  set e := resolveEnd (data.length * 8) r.hi with he2
  by_cases hbug : e - s < 64 ∨ e - s = sw
  · have hv2 : v < 2 ^ (e - s) := by
      have := Nat.two_pow_pos (e - s)
      omega
    have hspec := write_field_spec hsw8 hB hse he hw hbug hv2
    rw [← hs, ← he2] at hspec
    set f := firstByte s with hf
    set n := lastByte e + 1 - f with hn
    have hfval : f = s / 8 := hf
    have hnval : n = (e - 1) / 8 + 1 - f := hn
    have hlb : lastByte e = (e - 1) / 8 := rfl
    have hoffval : fieldOffset e = 7 - (e - 1) % 8 := rfl
    have hfnlen : f + n ≤ data.length := by omega
    have hfne : lastByte e + 1 = f + n := by omega
    set mid := beBytes n (spliceVal (sliceBE data f n) (fieldOffset e) (e - s) v)
      with hmiddef
    have hres : writeResult sw data r v
        = data.take f ++ mid ++ data.drop (lastByte e + 1) := by
      unfold writeResult
      rw [hspec]
    have hA : (data.take f).length = f := by
      rw [List.length_take]
      omega
    have hmidlen : mid.length = n := by
      rw [hmiddef]
      exact beBytes_length n _
    rw [hres]
    by_cases hkf : k < 8 * f
    · unfold bitAt
      rw [List.getD_append _ _ _ _ (show k / 8 < (data.take f ++ mid).length from by
          rw [List.length_append, hA, hmidlen]
          omega),
        List.getD_append _ _ _ _ (show k / 8 < (data.take f).length from by
          rw [hA]
          omega),
        getD_take (show k / 8 < f from by omega)]
    · by_cases hkfn : 8 * (f + n) ≤ k
      · unfold bitAt
        rw [List.getD_append_right _ _ _ _
            (show (data.take f ++ mid).length ≤ k / 8 from by
              rw [List.length_append, hA, hmidlen]
              omega),
          List.length_append, hA, hmidlen, hfne, getD_drop,
          show f + n + (k / 8 - (f + n)) = k / 8 from by omega]
      · have hBtake : Bytes (data.take f) := fun x hx => hB x (List.mem_of_mem_take hx)
        have hBdrop : Bytes (data.drop (lastByte e + 1)) := fun x hx =>
          hB x (List.mem_of_mem_drop hx)
        have hBmid : Bytes mid := by
          rw [hmiddef]
          exact beBytes_bytes n _
        have hB2 : Bytes (data.take f ++ mid ++ data.drop (lastByte e + 1)) :=
          Bytes_append (Bytes_append hBtake hBmid) hBdrop
        have hlen2 : (data.take f ++ mid ++ data.drop (lastByte e + 1)).length
            = data.length := by
          rw [List.length_append, List.length_append, hA, hmidlen, List.length_drop]
          omega
        have hfn2 : f + n ≤ (data.take f ++ mid ++ data.drop (lastByte e + 1)).length := by
          rw [hlen2]
          exact hfnlen
        rw [← sliceBE_testBit_bitAt hB2 hfn2 (show 8 * f ≤ k from by omega)
            (show k < 8 * (f + n) from by omega),
          ← sliceBE_testBit_bitAt hB hfnlen (show 8 * f ≤ k from by omega)
            (show k < 8 * (f + n) from by omega),
          sliceBE_of_append_mid hA hmidlen, hmiddef, beNat_beBytes]
        have ht : 8 * (f + n) - 1 - k < 8 * n := by omega
        rw [Nat.testBit_mod_two_pow, decide_eq_true ht, Bool.true_and]
        exact spliceVal_testBit_outside hv2 (by omega)
  · have herr : write_field sw data r v = .error data := by
      simp only [write_field, ← hs, ← he2, subChecked_pos (show 1 ≤ e from by omega),
        subChecked_pos (Nat.le_of_lt hse),
        bitmask_eq_none (show 64 ≤ e - s from by omega) (show e - s < sw from by omega)]
    have hres : writeResult sw data r v = data := by
      unfold writeResult
      rw [herr]
    rw [hres]

/-- Witness for C2: writing `0xA` into bits `4..8` of `[0x12, 0x34]`
leaves bit 0 unchanged. -/
theorem C2_frame_witness :
    bitAt (writeResult 8 [0x12, 0x34] ⟨.incl 4, .excl 8⟩ 0xA) 0
      = bitAt [0x12, 0x34] 0 :=
  C2_frame (Or.inl rfl) (by simp only [Bytes]; decide) (by decide) (by decide)
    (by decide) (by decide) (by decide) (Or.inl (by decide))

/-- Claim C9: `read_field` depends only on the bits of the buffer inside
the resolved interval `[start, end)`: two byte buffers of equal length
that agree on every bit position of the interval give equal results,
regardless of the bits outside the interval. -/
theorem C9_read_depends_only_on_field {sw : Nat} {d1 d2 : List Nat} {r : BitRange}
    (hsw : isStorageWidth sw) (hB1 : Bytes d1) (hB2 : Bytes d2)
    (hlen : d1.length = d2.length)
    (hse : resolveStart r.lo < resolveEnd (d1.length * 8) r.hi)
    (he : resolveEnd (d1.length * 8) r.hi ≤ 8 * d1.length)
    (hw : resolveEnd (d1.length * 8) r.hi - resolveStart r.lo ≤ sw)
    (hagree : ∀ k, k < resolveEnd (d1.length * 8) r.hi →
      resolveStart r.lo ≤ k → bitAt d1 k = bitAt d2 k) :
    read_field sw d1 r = read_field sw d2 r := by
  have hsw8 := isStorageWidth_ge8 hsw
  set s := resolveStart r.lo with hs
  set e := resolveEnd (d1.length * 8) r.hi with he2
  have he2b : resolveEnd (d2.length * 8) r.hi = e := by
    rw [he2, hlen]
  by_cases hbug : e - s < 64 ∨ e - s = sw
  · have h1 := read_field_spec hsw8 hB1 hse he hw hbug
    rw [← hs, ← he2] at h1
    have hse2 : resolveStart r.lo < resolveEnd (d2.length * 8) r.hi := by
      rw [he2b, ← hs]
      exact hse
    have he2c : resolveEnd (d2.length * 8) r.hi ≤ 8 * d2.length := by
      rw [he2b, ← hlen]
      exact he
    have hw2 : resolveEnd (d2.length * 8) r.hi - resolveStart r.lo ≤ sw := by
      rw [he2b, ← hs]
      exact hw
    have hbug2 : resolveEnd (d2.length * 8) r.hi - resolveStart r.lo < 64 ∨
        resolveEnd (d2.length * 8) r.hi - resolveStart r.lo = sw := by
      rw [he2b, ← hs]
      exact hbug
    have h2 := read_field_spec hsw8 hB2 hse2 he2c hw2 hbug2
    rw [he2b, ← hs] at h2
    rw [h1, h2]
    congr 1
    set f := firstByte s with hf
    set n := lastByte e + 1 - f with hn
    have hfval : f = s / 8 := hf
    have hnval : n = (e - 1) / 8 + 1 - f := hn
    have hlb : lastByte e = (e - 1) / 8 := rfl
    have hoffval : fieldOffset e = 7 - (e - 1) % 8 := rfl
    have hfn1 : f + n ≤ d1.length := by omega
    have hfn2 : f + n ≤ d2.length := by omega
    apply Nat.eq_of_testBit_eq
    intro t
    rcases Nat.lt_or_ge t (e - s) with htw | htw
    · simp only [Nat.testBit_mod_two_pow, decide_eq_true htw, Bool.true_and]
      rw [← Nat.shiftRight_eq_div_pow, ← Nat.shiftRight_eq_div_pow,
        Nat.testBit_shiftRight, Nat.testBit_shiftRight,
        show fieldOffset e + t
            = 8 * (f + n) - 1 - (8 * (f + n) - 1 - (fieldOffset e + t)) from by omega,
        sliceBE_testBit_bitAt hB1 hfn1 (by omega) (by omega),
        sliceBE_testBit_bitAt hB2 hfn2 (by omega) (by omega)]
      exact hagree _ (by omega) (by omega)
    · simp only [Nat.testBit_mod_two_pow,
        decide_eq_false (show ¬ t < e - s from by omega), Bool.false_and]
  · have hnone1 : read_field sw d1 r = none := by
      simp only [read_field, ← hs, ← he2, subChecked_pos (Nat.le_of_lt hse),
        if_pos hw, subChecked_pos (show 1 ≤ e from by omega),
        subChecked_pos (show firstByte s ≤ lastByte e from by
          unfold firstByte lastByte
          omega),
        bitmask_eq_none (show 64 ≤ e - s from by omega) (show e - s < sw from by omega)]
    have hnone2 : read_field sw d2 r = none := by
      simp only [read_field, he2b, ← hs, subChecked_pos (Nat.le_of_lt hse),
        if_pos hw, subChecked_pos (show 1 ≤ e from by omega),
        subChecked_pos (show firstByte s ≤ lastByte e from by
          unfold firstByte lastByte
          omega),
        bitmask_eq_none (show 64 ≤ e - s from by omega) (show e - s < sw from by omega)]
    rw [hnone1, hnone2]

/-- Witness for C9 on the equal-length buffers `[0x12]` and `[0xF2]`,
which agree on bits `4..8` but differ on bits `0..4`. -/
theorem C9_read_depends_only_on_field_witness :
    read_field 8 [0x12] ⟨.incl 4, .excl 8⟩ = read_field 8 [0xF2] ⟨.incl 4, .excl 8⟩ :=
  C9_read_depends_only_on_field (Or.inl rfl) (by simp only [Bytes]; decide)
    (by simp only [Bytes]; decide) rfl (by decide) (by decide) (by decide)
    (by decide)

end BitfieldAccess
